import Mathlib

/-!
# TTheory: finite-geometry asymmetry (Snyder 1948) and its plotting sweep

Shallow embedding of `src/TTheory.C`.

Conventions of the embedding.

* `Float_t` arithmetic is read as exact real arithmetic: the rounding, overflow and
  underflow of binary32 values are not modelled, and the development states only
  properties that do not depend on them.
  `TMath::Cos`, `TMath::Sin`, `TMath::Log`, `TMath::Pi` are `Real.cos`, `Real.sin`,
  `Real.log`, `Real.pi`.
* An expression whose C++ evaluation divides by a variable quantity or takes a
  logarithm has type `Option ℝ`.  `some x` says that every division met a non-zero
  divisor and every logarithm a positive argument, and that the exact value is `x`.
  `none` says that the evaluation met a division by zero or a logarithm of a
  non-positive number, the operations for which IEEE-754 arithmetic produces an
  infinity or a NaN instead of a number.
* The literal quotient `1./2.` is the real constant `1 / 2`.
* `Int_t` is a 32-bit integer. The integer operations `nBins-1` and `i*2` are exact
  whenever the mathematical result fits in 32 bits, and every theorem below stays
  in that range. Outside it the C++ behaviour is undefined; `wrapInt32` then gives
  the two's-complement value, which no theorem uses.
* `GraphFiniteAsymmetry_loop` is the sweep loop of `GraphFiniteAsymmetry`: it returns
  the rows of the six arrays the loop fills. The arrays live on the stack, which
  bounds `nBins` in a real call; the model has no such bound. The drawing calls are
  not modelled.
-/

noncomputable section

namespace TTheory

/-! ## Arithmetic primitives -/

/-- Division of two `Float_t` values; `none` when the divisor is zero. -/
def fdiv (a b : ℝ) : Option ℝ :=
  if b = 0 then none else some (a / b)

/-- The call `Log(x)`; `none` when the argument is not positive. -/
def flog (x : ℝ) : Option ℝ :=
  if 0 < x then some (Real.log x) else none

/-- The call `TMath::DegToRad()`, which is `Pi()/180`. -/
def DegToRad : ℝ := Real.pi / 180

/-- The call `TMath::RadToDeg()`, which is `180/Pi()`. -/
def RadToDeg : ℝ := 180 / Real.pi

/-- Reduction of an integer to the range of `Int_t` (two's complement, 32 bits). It
is the identity on the range of `Int_t`; outside it the C++ overflow is undefined
and the value given here is only the usual two's-complement result. -/
def wrapInt32 (z : Int) : Int :=
  (z + 2147483648) % 4294967296 - 2147483648

/-! ## Formula engine (lines 25 to 78 of `TTheory.C`) -/

/-- Source: `return ( 2. - Cos(theta) );` -/
def X (theta : ℝ) : ℝ :=
  2 - Real.cos theta

/-- Source: `return ( Log(X(theta)) - 1./( 2.*X(theta)*X(theta) ) );` -/
def JLim (theta : ℝ) : Option ℝ := do
  let l ← flog (X theta)
  let q ← fdiv 1 (2 * X theta * X theta)
  pure (l - q)

/-- Source: `return ( JLim(theta+semiSpan) - JLim(theta-semiSpan) );` -/
def J (theta semiSpan : ℝ) : Option ℝ := do
  let a ← JLim (theta + semiSpan)
  let b ← JLim (theta - semiSpan)
  pure (a - b)

/-- Source: `return ( -X(theta) + 4.*Log(X(theta)) + 3./( X(theta) ) );` -/
def JdashLim (theta : ℝ) : Option ℝ := do
  let l ← flog (X theta)
  let q ← fdiv 3 (X theta)
  pure (-X theta + 4 * l + q)

/-- Source: `return ( JdashLim(theta+semiSpan) - JdashLim(theta-semiSpan) );` -/
def Jdash (theta semiSpan : ℝ) : Option ℝ := do
  let a ← JdashLim (theta + semiSpan)
  let b ← JdashLim (theta - semiSpan)
  pure (a - b)

/-- Source: `return ( 1. + 1./( 1./2.*(J/Jdash)*(J/Jdash) - (J/Jdash) ) );`
where `J/Jdash` abbreviates `J(theta,semiSpan)/Jdash(theta,semiSpan)`. -/
def rho1 (theta semiSpan : ℝ) : Option ℝ := do
  let j ← J theta semiSpan
  let jd ← Jdash theta semiSpan
  let r ← fdiv j jd
  let q ← fdiv 1 (1 / 2 * r * r - r)
  pure (1 + q)

/-- Source: `return ( 2*alpha*alpha - 1./2.*Sin(2*alpha)*Sin(2*alpha) );` -/
def u (alpha : ℝ) : ℝ :=
  2 * alpha * alpha - 1 / 2 * Real.sin (2 * alpha) * Real.sin (2 * alpha)

/-- Source: `return ( 2*alpha*alpha + 1./2.*Sin(2*alpha)*Sin(2*alpha) );` -/
def w (alpha : ℝ) : ℝ :=
  2 * alpha * alpha + 1 / 2 * Real.sin (2 * alpha) * Real.sin (2 * alpha)

/-- Source: `return (u(alpha)/w(alpha));` -/
def Z (alpha : ℝ) : Option ℝ :=
  fdiv (u alpha) (w alpha)

/-- Source:
`return ( (Z(alpha) + rho1(theta,semiSpan) )/( 1 + Z(alpha)*rho1(theta,semiSpan)) );` -/
def rho2 (theta semiSpan alpha : ℝ) : Option ℝ := do
  let z ← Z alpha
  let r ← rho1 theta semiSpan
  fdiv (z + r) (1 + z * r)

/-- Source: `return (511./(2 - Cos(TMath::DegToRad()*theta)));` -/
def ThetaToPhotonEnergy (theta : ℝ) : Option ℝ :=
  fdiv 511 (2 - Real.cos (DegToRad * theta))

/-- Source: `return (511. - (511./(2. - Cos(TMath::DegToRad()*theta))));` -/
def ThetaToElectronEnergy (theta : ℝ) : Option ℝ := do
  let q ← fdiv 511 (2 - Real.cos (DegToRad * theta))
  pure (511 - q)

/-! ## Sweep loop of `GraphFiniteAsymmetry` (lines 89 and 122 to 140) -/

/-- The value of the parameter after `semiSpan = DegToRad()*semiSpan;` (line 89). -/
def semiSpanRad (semiSpan : ℝ) : ℝ :=
  DegToRad * semiSpan

/-- Source: `Float_t alpha1 = DegToRad()*1.;` -/
def alpha1 : ℝ := DegToRad * 1

/-- Source: `Float_t alpha2 = DegToRad()*30.;` -/
def alpha2 : ℝ := DegToRad * 30

/-- Source: `Float_t alpha3 = DegToRad()*45.;` -/
def alpha3 : ℝ := DegToRad * 45

/-- Line 129, with `semiSpan` already in radians:
`theta[i] = 90. - (nBins-1)*semiSpan*RadToDeg() + i*2*semiSpan*RadToDeg();`
The subexpressions `nBins-1` and `i*2` are `Int_t` arithmetic. -/
def thetaDeg (nBins : Int) (semiSpan : ℝ) (i : Int) : ℝ :=
  90 - ((wrapInt32 (nBins - 1) : Int) : ℝ) * semiSpan * RadToDeg
    + ((wrapInt32 (i * 2) : Int) : ℝ) * semiSpan * RadToDeg

/-- Line 133: `theta[i] = theta[i]*DegToRad();` -/
def thetaRadians (nBins : Int) (semiSpan : ℝ) (i : Int) : ℝ :=
  thetaDeg nBins semiSpan i * DegToRad

/-- Line 139: `theta[i] = theta[i]*RadToDeg();`, the value left in `theta[i]`. -/
def thetaStored (nBins : Int) (semiSpan : ℝ) (i : Int) : ℝ :=
  thetaRadians nBins semiSpan i * RadToDeg

/-- One row of the six arrays filled by the loop. -/
structure SweepRow where
  theta : ℝ
  elecNRG : Option ℝ
  gammaNRG : Option ℝ
  asymm1 : Option ℝ
  asymm2 : Option ℝ
  asymm3 : Option ℝ

/-- The body of the loop at index `i`, with `semiSpan` already in radians
(lines 129 to 139). -/
def loopBody (nBins : Int) (semiSpan : ℝ) (i : Int) : SweepRow where
  theta := thetaStored nBins semiSpan i
  elecNRG := ThetaToElectronEnergy (thetaDeg nBins semiSpan i)
  gammaNRG := ThetaToPhotonEnergy (thetaDeg nBins semiSpan i)
  asymm1 := rho2 (thetaRadians nBins semiSpan i) semiSpan alpha1
  asymm2 := rho2 (thetaRadians nBins semiSpan i) semiSpan alpha2
  asymm3 := rho2 (thetaRadians nBins semiSpan i) semiSpan alpha3

/-- The loop `for(Int_t i = 0 ; i < nBins ; i++)` of `GraphFiniteAsymmetry`, called
with `semiSpan` in degrees: the rows in the order in which they are written. -/
def GraphFiniteAsymmetry_loop (nBins : Int) (semiSpan : ℝ) : List SweepRow :=
  (List.range nBins.toNat).map
    (fun i : Nat => loopBody nBins (semiSpanRad semiSpan) (i : Int))

/-- The angle sample left in `theta[i]` by a call with `semiSpan` in degrees. -/
def sample (nBins : Int) (semiSpan : ℝ) (i : Int) : ℝ :=
  thetaStored nBins (semiSpanRad semiSpan) i

/-! ## Output file name of `GraphFiniteAsymmetry` (lines 209 to 214) -/

/-- The decimal digits of a natural number, most significant first, as the C library
prints a non-negative `int` for the conversion `%d`. -/
def decimalNat (n : Nat) : List Char :=
  if n = 0 then ['0'] else ((Nat.digits 10 n).reverse).map Nat.digitChar

/-- The conversion `%d` of `sprintf` applied to an `Int_t`: a minus sign for a
negative value, then the decimal digits of the magnitude. -/
def formatD (z : Int) : List Char :=
  if z < 0 then '-' :: decimalNat z.natAbs else decimalNat z.toNat

/-- The contents of the buffer `plotName` handed to `SaveAs`, as a list of
characters. Source:
`if ( xVariable=='t') sprintf(plotName,"../Plots/FiniteAsymmetry_%d_theta.pdf", nBins);`
`else if( xVariable=='e') sprintf(plotName,"../Plots/FiniteAsymmetry_%d_energy.pdf", nBins);`
For any other `xVariable` the buffer is never written and the result is `none`. -/
def plotName (nBins : Int) (xVariable : Char) : Option (List Char) :=
  if xVariable = 't' then
    some ("../Plots/FiniteAsymmetry_".toList ++ formatD nBins ++ "_theta.pdf".toList)
  else if xVariable = 'e' then
    some ("../Plots/FiniteAsymmetry_".toList ++ formatD nBins ++ "_energy.pdf".toList)
  else none

/-! ## Exact values of the formulas, used to state what the code computes -/

/-- The real number computed by `JLim`. -/
def JLimVal (theta : ℝ) : ℝ :=
  Real.log (X theta) - 1 / (2 * X theta * X theta)

/-- The real number computed by `JdashLim`. -/
def JdashLimVal (theta : ℝ) : ℝ :=
  -X theta + 4 * Real.log (X theta) + 3 / X theta

/-- The real number computed by `J`. -/
def JVal (theta semiSpan : ℝ) : ℝ :=
  JLimVal (theta + semiSpan) - JLimVal (theta - semiSpan)

/-- The real number computed by `Jdash`. -/
def JdashVal (theta semiSpan : ℝ) : ℝ :=
  JdashLimVal (theta + semiSpan) - JdashLimVal (theta - semiSpan)

/-- The real number computed by `rho1` when no divisor vanishes. -/
def rho1Val (theta semiSpan : ℝ) : ℝ :=
  1 + 1 / (1 / 2 * (JVal theta semiSpan / JdashVal theta semiSpan)
    * (JVal theta semiSpan / JdashVal theta semiSpan)
    - JVal theta semiSpan / JdashVal theta semiSpan)

/-- The real number computed by `rho2` from the values `z` of `Z` and `r` of `rho1`. -/
def rho2Val (z r : ℝ) : ℝ :=
  (z + r) / (1 + z * r)

/-! ## Basic facts -/

theorem X_ge_one (theta : ℝ) : 1 ≤ X theta := by
  unfold X
  linarith [Real.cos_le_one theta]

theorem X_le_three (theta : ℝ) : X theta ≤ 3 := by
  unfold X
  linarith [Real.neg_one_le_cos theta]

theorem X_pos (theta : ℝ) : 0 < X theta :=
  lt_of_lt_of_le one_pos (X_ge_one theta)

theorem fdiv_of_ne {a b : ℝ} (h : b ≠ 0) : fdiv a b = some (a / b) := by
  simp [fdiv, h]

theorem fdiv_zero (a : ℝ) : fdiv a 0 = none := by
  simp [fdiv]

theorem flog_of_pos {x : ℝ} (h : 0 < x) : flog x = some (Real.log x) := by
  simp [flog, h]

theorem compton_divisor_pos (theta : ℝ) : 0 < 2 - Real.cos (DegToRad * theta) := by
  linarith [Real.cos_le_one (DegToRad * theta)]

theorem ThetaToPhotonEnergy_eq (theta : ℝ) :
    ThetaToPhotonEnergy theta = some (511 / (2 - Real.cos (DegToRad * theta))) := by
  unfold ThetaToPhotonEnergy
  exact fdiv_of_ne (ne_of_gt (compton_divisor_pos theta))

theorem ThetaToElectronEnergy_eq (theta : ℝ) :
    ThetaToElectronEnergy theta
      = some (511 - 511 / (2 - Real.cos (DegToRad * theta))) := by
  unfold ThetaToElectronEnergy
  rw [fdiv_of_ne (ne_of_gt (compton_divisor_pos theta))]
  rfl

theorem JLim_eq (theta : ℝ) : JLim theta = some (JLimVal theta) := by
  have hX := X_pos theta
  have h2 : 2 * X theta * X theta ≠ 0 := by positivity
  unfold JLim
  rw [flog_of_pos hX, fdiv_of_ne h2]
  rfl

theorem JdashLim_eq (theta : ℝ) : JdashLim theta = some (JdashLimVal theta) := by
  have hX := X_pos theta
  unfold JdashLim
  rw [flog_of_pos hX, fdiv_of_ne (ne_of_gt hX)]
  rfl

theorem J_eq (theta semiSpan : ℝ) : J theta semiSpan = some (JVal theta semiSpan) := by
  unfold J
  rw [JLim_eq, JLim_eq]
  rfl

theorem Jdash_eq (theta semiSpan : ℝ) :
    Jdash theta semiSpan = some (JdashVal theta semiSpan) := by
  unfold Jdash
  rw [JdashLim_eq, JdashLim_eq]
  rfl

/-- The evaluation of `rho1` once the two finite differences are known. -/
theorem rho1_unfold (theta s : ℝ) :
    rho1 theta s = (fdiv (JVal theta s) (JdashVal theta s)).bind
      (fun r => (fdiv 1 (1 / 2 * r * r - r)).bind (fun q => some (1 + q))) := by
  unfold rho1
  rw [J_eq, Jdash_eq]
  rfl

theorem u_neg (alpha : ℝ) : u (-alpha) = u alpha := by
  unfold u
  rw [show 2 * -alpha = -(2 * alpha) by ring, Real.sin_neg]
  ring

theorem w_neg (alpha : ℝ) : w (-alpha) = w alpha := by
  unfold w
  rw [show 2 * -alpha = -(2 * alpha) by ring, Real.sin_neg]
  ring

theorem Z_neg (alpha : ℝ) : Z (-alpha) = Z alpha := by
  unfold Z
  rw [u_neg, w_neg]

theorem gAux_hasDerivAt {x : ℝ} (hx : x ≠ 0) :
    HasDerivAt (fun y : ℝ => -y + 4 * Real.log y + 3 / y)
      (-1 + 4 * x⁻¹ + 3 * (-(x ^ 2)⁻¹)) x := by
  have h1 : HasDerivAt (fun y : ℝ => -y) (-1) x := (hasDerivAt_id x).neg
  have h2 : HasDerivAt (fun y : ℝ => 4 * Real.log y) (4 * x⁻¹) x :=
    (Real.hasDerivAt_log hx).const_mul 4
  have h3 : HasDerivAt (fun y : ℝ => 3 * y⁻¹) (3 * (-(x ^ 2)⁻¹)) x :=
    (hasDerivAt_inv hx).const_mul 3
  have h := (h1.add h2).add h3
  refine h.congr_of_eventuallyEq ?_
  filter_upwards with y
  simp [div_eq_mul_inv]

theorem hAux_hasDerivAt {x : ℝ} (hx : x ≠ 0) :
    HasDerivAt (fun y : ℝ => Real.log y - 1 / (2 * y * y) - 2 * (-y + 4 * Real.log y + 3 / y))
      (x⁻¹ - (1 / 2) * (-(2 : ℝ) * x ^ (-3 : ℤ)) - 2 * (-1 + 4 * x⁻¹ + 3 * (-(x ^ 2)⁻¹))) x := by
  have h1 : HasDerivAt (fun y : ℝ => Real.log y) x⁻¹ x := Real.hasDerivAt_log hx
  have h2 : HasDerivAt (fun y : ℝ => (1 / 2 : ℝ) * y ^ (-2 : ℤ))
      ((1 / 2) * (((-2 : ℤ) : ℝ) * x ^ ((-2 : ℤ) - 1))) x :=
    (hasDerivAt_zpow (-2) x (Or.inl hx)).const_mul (1 / 2 : ℝ)
  have h3 := (gAux_hasDerivAt hx).const_mul (2 : ℝ)
  have h := (h1.sub h2).sub h3
  have e : (x⁻¹ - (1 / 2) * (-(2 : ℝ) * x ^ (-3 : ℤ)) - 2 * (-1 + 4 * x⁻¹ + 3 * (-(x ^ 2)⁻¹)))
      = (x⁻¹ - (1 / 2) * (((-2 : ℤ) : ℝ) * x ^ ((-2 : ℤ) - 1)) - 2 * (-1 + 4 * x⁻¹ + 3 * (-(x ^ 2)⁻¹))) := by
    norm_num
  rw [e]
  refine h.congr_of_eventuallyEq ?_
  filter_upwards with y
  have : (1 : ℝ) / (2 * y * y) = 1 / 2 * y ^ (-2 : ℤ) := by
    rw [zpow_neg, zpow_ofNat]
    by_cases hy : y = 0
    · simp [hy]
    · field_simp
      ring
  simp only [this]

theorem gAux_strictMonoOn :
    StrictMonoOn (fun y : ℝ => -y + 4 * Real.log y + 3 / y) (Set.Icc 1 3) := by
  apply strictMonoOn_of_deriv_pos (convex_Icc 1 3)
  · intro x hx
    have hx0 : x ≠ 0 := by have := hx.1; intro h; rw [h] at this; linarith
    exact (gAux_hasDerivAt hx0).continuousAt.continuousWithinAt
  · intro x hx
    rw [interior_Icc] at hx
    have hx0 : x ≠ 0 := by have := hx.1; intro h; rw [h] at this; linarith
    rw [(gAux_hasDerivAt hx0).deriv]
    have hpos : 0 < x := by linarith [hx.1]
    have e : -1 + 4 * x⁻¹ + 3 * (-(x ^ 2)⁻¹) = (x - 1) * (3 - x) / x ^ 2 := by
      field_simp
      ring
    rw [e]
    apply div_pos
    · exact mul_pos (by linarith [hx.1]) (by linarith [hx.2])
    · positivity

theorem hAux_strictMonoOn :
    StrictMonoOn (fun y : ℝ => Real.log y - 1 / (2 * y * y) - 2 * (-y + 4 * Real.log y + 3 / y))
      (Set.Icc 1 3) := by
  apply strictMonoOn_of_deriv_pos (convex_Icc 1 3)
  · intro x hx
    have hx0 : x ≠ 0 := by have := hx.1; intro h; rw [h] at this; linarith
    exact (hAux_hasDerivAt hx0).continuousAt.continuousWithinAt
  · intro x hx
    rw [interior_Icc] at hx
    have hx0 : x ≠ 0 := by have := hx.1; intro h; rw [h] at this; linarith
    rw [(hAux_hasDerivAt hx0).deriv]
    have hpos : 0 < x := by linarith [hx.1]
    have e : (x⁻¹ - (1 / 2) * (-(2 : ℝ) * x ^ (-3 : ℤ)) - 2 * (-1 + 4 * x⁻¹ + 3 * (-(x ^ 2)⁻¹)))
        = (2 * x * (x - 7 / 4) ^ 2 + (1 - x / 8)) / x ^ 3 := by
      rw [zpow_neg]
      have : x ^ (3 : ℤ) = x ^ 3 := by norm_cast
      rw [this]
      field_simp
      ring
    rw [e]
    apply div_pos
    · have : 0 ≤ 2 * x * (x - 7 / 4) ^ 2 := by positivity
      linarith [hx.2]
    · positivity

theorem X_strictMonoOn : StrictMonoOn X (Set.Icc 0 Real.pi) := by
  intro a ha b hb hab
  unfold X
  linarith [Real.strictAntiOn_cos ha hb hab]

theorem X_mem_Icc (theta : ℝ) : X theta ∈ Set.Icc (1 : ℝ) 3 :=
  ⟨X_ge_one theta, X_le_three theta⟩

/-- On `[0, π]` the antiderivative `JdashLim` is strictly increasing. -/
theorem JdashLimVal_lt {a b : ℝ} (ha : 0 ≤ a) (hab : a < b) (hb : b ≤ Real.pi) :
    JdashLimVal a < JdashLimVal b := by
  have hX : X a < X b :=
    X_strictMonoOn ⟨ha, le_trans hab.le hb⟩ ⟨le_trans ha hab.le, hb⟩ hab
  exact gAux_strictMonoOn (X_mem_Icc a) (X_mem_Icc b) hX

/-- On `[0, π]` the difference `JLim - 2 * JdashLim` is strictly increasing. -/
theorem JLimVal_sub_lt {a b : ℝ} (ha : 0 ≤ a) (hab : a < b) (hb : b ≤ Real.pi) :
    JLimVal a - 2 * JdashLimVal a < JLimVal b - 2 * JdashLimVal b := by
  have hX : X a < X b :=
    X_strictMonoOn ⟨ha, le_trans hab.le hb⟩ ⟨le_trans ha hab.le, hb⟩ hab
  exact hAux_strictMonoOn (X_mem_Icc a) (X_mem_Icc b) hX

theorem JdashVal_pos {theta s : ℝ} (h0 : 0 ≤ theta - s) (hs : theta - s < theta + s)
    (hpi : theta + s ≤ Real.pi) : 0 < JdashVal theta s := by
  unfold JdashVal
  linarith [JdashLimVal_lt h0 hs hpi]

theorem two_JdashVal_lt_JVal {theta s : ℝ} (h0 : 0 ≤ theta - s)
    (hs : theta - s < theta + s) (hpi : theta + s ≤ Real.pi) :
    2 * JdashVal theta s < JVal theta s := by
  unfold JdashVal JVal
  linarith [JLimVal_sub_lt h0 hs hpi]

/-- On a detector window inside `[0, π]` the evaluation of `rho1` meets no zero
divisor and its value exceeds 1. -/
theorem rho1_valid {theta s : ℝ} (h0 : 0 ≤ theta - s) (hs : theta - s < theta + s)
    (hpi : theta + s ≤ Real.pi) :
    rho1 theta s = some (rho1Val theta s) ∧ 1 < rho1Val theta s := by
  have hjd := JdashVal_pos h0 hs hpi
  have hj := two_JdashVal_lt_JVal h0 hs hpi
  have hr : 2 < JVal theta s / JdashVal theta s := by
    rw [lt_div_iff₀ hjd]
    exact hj
  have hq : 0 < 1 / 2 * (JVal theta s / JdashVal theta s)
      * (JVal theta s / JdashVal theta s) - JVal theta s / JdashVal theta s := by
    nlinarith
  constructor
  · rw [rho1_unfold, fdiv_of_ne (ne_of_gt hjd)]
    simp only [Option.some_bind]
    rw [fdiv_of_ne (ne_of_gt hq)]
    rfl
  · have := one_div_pos.mpr hq
    unfold rho1Val
    linarith

theorem rho2_eq_fdiv {theta s alpha z r : ℝ} (hz : Z alpha = some z)
    (hr : rho1 theta s = some r) :
    rho2 theta s alpha = fdiv (z + r) (1 + z * r) := by
  unfold rho2
  rw [hz, hr]
  rfl

theorem w_pos {alpha : ℝ} (h : alpha ≠ 0) : 0 < w alpha := by
  unfold w
  have h1 : 0 < alpha * alpha := mul_self_pos.mpr h
  have h2 : 0 ≤ Real.sin (2 * alpha) * Real.sin (2 * alpha) := mul_self_nonneg _
  nlinarith

theorem Z_eq {alpha : ℝ} (h : alpha ≠ 0) : Z alpha = some (u alpha / w alpha) := by
  unfold Z
  exact fdiv_of_ne (ne_of_gt (w_pos h))

theorem u_nonneg (alpha : ℝ) : 0 ≤ u alpha := by
  unfold u
  have h := @Real.sin_sq_le_sq (2 * alpha)
  nlinarith

/-! ## The sweep grid -/

theorem wrapInt32_eq {z : Int} (h1 : -2147483648 ≤ z) (h2 : z < 2147483648) :
    wrapInt32 z = z := by
  unfold wrapInt32
  omega

theorem DegToRad_mul_RadToDeg : DegToRad * RadToDeg = 1 := by
  unfold DegToRad RadToDeg
  field_simp

/-- The two conversions of line 133 and line 139 cancel, and so do the conversion of
`semiSpan` at line 89 and the factors `RadToDeg()` of line 129. -/
theorem sample_eq (nBins : Int) (semiSpan : ℝ) (i : Int) :
    sample nBins semiSpan i
      = 90 - ((wrapInt32 (nBins - 1) : Int) : ℝ) * semiSpan
        + ((wrapInt32 (i * 2) : Int) : ℝ) * semiSpan := by
  have h := DegToRad_mul_RadToDeg
  unfold sample thetaStored thetaRadians thetaDeg semiSpanRad
  linear_combination
    (90 - ((wrapInt32 (nBins - 1) : Int) : ℝ) * semiSpan * (DegToRad * RadToDeg + 1)
      + ((wrapInt32 (i * 2) : Int) : ℝ) * semiSpan * (DegToRad * RadToDeg + 1)) * h

/-- Below the overflow of `i*2` the stored sample is the grid formula. -/
theorem sample_formula {nBins : Int} (semiSpan : ℝ) {i : Int} (hN1 : 1 ≤ nBins)
    (hN : nBins < 2147483648) (hi0 : 0 ≤ i) (hi : i < 1073741824) :
    sample nBins semiSpan i
      = 90 - ((nBins : ℝ) - 1) * semiSpan + (i : ℝ) * 2 * semiSpan := by
  rw [sample_eq, wrapInt32_eq (by omega) (by omega), wrapInt32_eq (by omega) (by omega)]
  push_cast
  ring

/-! ## The three azimuthal acceptances of the sweep -/

theorem frac_lt_frac {A B A' B' : ℝ} (hA : 0 < A + B) (hA' : 0 < A' + B')
    (h : A * B' < A' * B) : (A - B) / (A + B) < (A' - B') / (A' + B') := by
  rw [div_lt_div_iff₀ hA hA']
  nlinarith

theorem alpha1_ne_zero : alpha1 ≠ 0 := by
  unfold alpha1 DegToRad
  have := Real.pi_pos
  positivity

theorem alpha2_ne_zero : alpha2 ≠ 0 := by
  unfold alpha2 DegToRad
  have := Real.pi_pos
  positivity

theorem alpha3_ne_zero : alpha3 ≠ 0 := by
  unfold alpha3 DegToRad
  have := Real.pi_pos
  positivity

theorem sin_two_alpha2 : Real.sin (2 * alpha2) * Real.sin (2 * alpha2) = 3 / 4 := by
  have e : 2 * alpha2 = Real.pi / 3 := by
    unfold alpha2 DegToRad
    ring
  rw [e, Real.sin_pi_div_three]
  have h3 : Real.sqrt 3 * Real.sqrt 3 = 3 := Real.mul_self_sqrt (by norm_num)
  nlinarith

theorem sin_two_alpha3 : Real.sin (2 * alpha3) = 1 := by
  have e : 2 * alpha3 = Real.pi / 2 := by
    unfold alpha3 DegToRad
    ring
  rw [e, Real.sin_pi_div_two]

theorem sin_two_alpha1_sq :
    1 / 1200 < Real.sin (2 * alpha1) * Real.sin (2 * alpha1) := by
  have e : 2 * alpha1 = Real.pi / 90 := by
    unfold alpha1 DegToRad
    ring
  rw [e]
  have h3 := Real.pi_gt_three
  have h4 := Real.pi_le_four
  have hpos : 0 < Real.pi / 90 := by positivity
  have hle : Real.pi / 90 ≤ 2 / 45 := by linarith
  have hsin := Real.sin_gt_sub_cube hpos (by linarith)
  have hcube : (Real.pi / 90) ^ 3 ≤ (2 / 45 : ℝ) ^ 3 :=
    pow_le_pow_left₀ hpos.le hle 3
  have hlow : (3 / 100 : ℝ) < Real.sin (Real.pi / 90) := by
    have : (2 / 45 : ℝ) ^ 3 / 4 < 1 / 30 - 3 / 100 := by norm_num
    linarith
  nlinarith

/-- The values of `Z` at the three acceptances of the sweep increase with the
acceptance and stay in `[0, 1)`. -/
theorem Z_values_order :
    0 ≤ u alpha1 / w alpha1 ∧ u alpha1 / w alpha1 < u alpha2 / w alpha2 ∧
      u alpha2 / w alpha2 < u alpha3 / w alpha3 ∧ u alpha3 / w alpha3 < 1 := by
  have hw1 := w_pos alpha1_ne_zero
  have hw2 := w_pos alpha2_ne_zero
  have hw3 := w_pos alpha3_ne_zero
  have hs1 := sin_two_alpha1_sq
  have hs2 := sin_two_alpha2
  have hs3 := sin_two_alpha3
  have hpi := Real.pi_pos
  have hpi2 : 0 < Real.pi * Real.pi := mul_pos hpi hpi
  have a1 : alpha1 * alpha1 = Real.pi * Real.pi / 32400 := by
    unfold alpha1 DegToRad
    ring
  have a2 : alpha2 * alpha2 = Real.pi * Real.pi / 36 := by
    unfold alpha2 DegToRad
    ring
  have a3 : alpha3 * alpha3 = Real.pi * Real.pi / 16 := by
    unfold alpha3 DegToRad
    ring
  refine ⟨div_nonneg (u_nonneg alpha1) hw1.le, ?_, ?_, ?_⟩
  · have e1 : u alpha1 = 2 * (alpha1 * alpha1)
        - 1 / 2 * (Real.sin (2 * alpha1) * Real.sin (2 * alpha1)) := by
      unfold u
      ring
    have e2 : w alpha1 = 2 * (alpha1 * alpha1)
        + 1 / 2 * (Real.sin (2 * alpha1) * Real.sin (2 * alpha1)) := by
      unfold w
      ring
    have e3 : u alpha2 = 2 * (alpha2 * alpha2)
        - 1 / 2 * (Real.sin (2 * alpha2) * Real.sin (2 * alpha2)) := by
      unfold u
      ring
    have e4 : w alpha2 = 2 * (alpha2 * alpha2)
        + 1 / 2 * (Real.sin (2 * alpha2) * Real.sin (2 * alpha2)) := by
      unfold w
      ring
    rw [e2] at hw1
    rw [e4] at hw2
    rw [e1, e2, e3, e4]
    apply frac_lt_frac hw1 hw2
    rw [hs2, a1, a2]
    nlinarith
  · have e3 : u alpha2 = 2 * (alpha2 * alpha2)
        - 1 / 2 * (Real.sin (2 * alpha2) * Real.sin (2 * alpha2)) := by
      unfold u
      ring
    have e4 : w alpha2 = 2 * (alpha2 * alpha2)
        + 1 / 2 * (Real.sin (2 * alpha2) * Real.sin (2 * alpha2)) := by
      unfold w
      ring
    have e5 : u alpha3 = 2 * (alpha3 * alpha3)
        - 1 / 2 * (Real.sin (2 * alpha3) * Real.sin (2 * alpha3)) := by
      unfold u
      ring
    have e6 : w alpha3 = 2 * (alpha3 * alpha3)
        + 1 / 2 * (Real.sin (2 * alpha3) * Real.sin (2 * alpha3)) := by
      unfold w
      ring
    rw [e4] at hw2
    rw [e6] at hw3
    rw [e3, e4, e5, e6]
    apply frac_lt_frac hw2 hw3
    rw [hs2, hs3, a2, a3]
    nlinarith
  · rw [div_lt_one hw3]
    unfold u w
    rw [hs3]
    linarith

theorem rho2Val_sub_one {z r : ℝ} (h : 1 + z * r ≠ 0) :
    rho2Val z r - 1 = (1 - z) * (r - 1) / (1 + z * r) := by
  unfold rho2Val
  field_simp
  ring

/-- For a polar asymmetry above 1, a larger azimuthal factor in `[0, 1]` brings the
combined asymmetry strictly closer to 1. -/
theorem rho2Val_closer {z z' r : ℝ} (hr : 1 < r) (hz : 0 ≤ z) (hzz : z < z')
    (hz' : z' ≤ 1) : |rho2Val z' r - 1| < |rho2Val z r - 1| := by
  have hd : 0 < 1 + z * r := by nlinarith
  have hd' : 0 < 1 + z' * r := by nlinarith
  rw [rho2Val_sub_one (ne_of_gt hd), rho2Val_sub_one (ne_of_gt hd')]
  have hn : 0 ≤ (1 - z) * (r - 1) / (1 + z * r) :=
    div_nonneg (mul_nonneg (by linarith) (by linarith)) hd.le
  have hn' : 0 ≤ (1 - z') * (r - 1) / (1 + z' * r) :=
    div_nonneg (mul_nonneg (by linarith) (by linarith)) hd'.le
  rw [abs_of_nonneg hn, abs_of_nonneg hn', div_lt_div_iff₀ hd' hd]
  have h1 : 0 < (z' - z) * (r + 1) := mul_pos (by linarith) (by linarith)
  have h2 : 0 < (r - 1) * ((z' - z) * (r + 1)) := mul_pos (by linarith) h1
  nlinarith

theorem rho2_eq_of_nonneg {theta s alpha r : ℝ} (ha : alpha ≠ 0)
    (hr : rho1 theta s = some r) (hr1 : 1 < r) :
    rho2 theta s alpha = some (rho2Val (u alpha / w alpha) r) := by
  have hz : 0 ≤ u alpha / w alpha := div_nonneg (u_nonneg alpha) (w_pos ha).le
  have hd : 0 < 1 + u alpha / w alpha * r := by nlinarith
  rw [rho2_eq_fdiv (Z_eq ha) hr, fdiv_of_ne (ne_of_gt hd)]
  rfl

/-- On a detector window inside `[0, π]` the three asymmetries of one sweep row are
numbers, each strictly closer to 1 than the one before. -/
theorem rho2_three_alphas {theta s : ℝ} (h0 : 0 ≤ theta - s)
    (hs : theta - s < theta + s) (hpi : theta + s ≤ Real.pi) :
    ∃ a1 a2 a3 : ℝ, rho2 theta s alpha1 = some a1 ∧ rho2 theta s alpha2 = some a2 ∧
      rho2 theta s alpha3 = some a3 ∧
      |a2 - 1| < |a1 - 1| ∧ |a3 - 1| < |a2 - 1| := by
  obtain ⟨hr, hr1⟩ := rho1_valid h0 hs hpi
  obtain ⟨z0, z12, z23, z3⟩ := Z_values_order
  refine ⟨_, _, _, rho2_eq_of_nonneg alpha1_ne_zero hr hr1,
    rho2_eq_of_nonneg alpha2_ne_zero hr hr1, rho2_eq_of_nonneg alpha3_ne_zero hr hr1,
    ?_, ?_⟩
  · exact rho2Val_closer hr1 z0 z12 (by linarith)
  · exact rho2Val_closer hr1 (by linarith) z23 z3.le

theorem thetaDeg_semiSpanRad (nBins : Int) (semiSpan : ℝ) (i : Int) :
    thetaDeg nBins (semiSpanRad semiSpan) i
      = 90 - ((wrapInt32 (nBins - 1) : Int) : ℝ) * semiSpan
        + ((wrapInt32 (i * 2) : Int) : ℝ) * semiSpan := by
  have h := DegToRad_mul_RadToDeg
  unfold thetaDeg semiSpanRad
  linear_combination
    (-((wrapInt32 (nBins - 1) : Int) : ℝ) * semiSpan
      + ((wrapInt32 (i * 2) : Int) : ℝ) * semiSpan) * h

/-- The rows of the sweep `nBins = 3`, `semiSpan = 5` degrees have their detector
window inside `[0, π]`. -/
theorem window_three_five {i : Int} (hi0 : 0 ≤ i) (hi : i ≤ 2) :
    0 ≤ thetaRadians 3 (semiSpanRad 5) i - semiSpanRad 5 ∧
      thetaRadians 3 (semiSpanRad 5) i - semiSpanRad 5
        < thetaRadians 3 (semiSpanRad 5) i + semiSpanRad 5 ∧
      thetaRadians 3 (semiSpanRad 5) i + semiSpanRad 5 ≤ Real.pi := by
  have hpi := Real.pi_pos
  have e : thetaRadians 3 (semiSpanRad 5) i = (80 + 10 * (i : ℝ)) * (Real.pi / 180) := by
    unfold thetaRadians
    rw [thetaDeg_semiSpanRad, wrapInt32_eq (by omega) (by omega),
      wrapInt32_eq (by omega) (by omega)]
    unfold DegToRad
    push_cast
    ring
  have es : semiSpanRad 5 = 5 * (Real.pi / 180) := by
    unfold semiSpanRad DegToRad
    ring
  have h0 : (0 : ℝ) ≤ (i : ℝ) := by exact_mod_cast hi0
  have h2 : (i : ℝ) ≤ 2 := by exact_mod_cast hi
  rw [e, es]
  refine ⟨?_, ?_, ?_⟩
  · nlinarith
  · nlinarith
  · nlinarith

/-! ## Singular points of `rho1` -/

theorem rho1_divisor_eq_zero_iff (r : ℝ) : 1 / 2 * r * r - r = 0 ↔ r = 0 ∨ r = 2 := by
  constructor
  · intro h
    have h2 : r * (r - 2) = 0 := by linarith
    rcases mul_eq_zero.mp h2 with h3 | h3
    · exact Or.inl h3
    · exact Or.inr (by linarith)
  · rintro (h | h)
    · rw [h]
      norm_num
    · rw [h]
      norm_num

/-- The result of `rho1` in terms of the two finite differences `j` and `jd`. -/
theorem rho1_eq_some_iff (theta s v : ℝ) :
    rho1 theta s = some v ↔
      JdashVal theta s ≠ 0 ∧
        1 / 2 * (JVal theta s / JdashVal theta s) * (JVal theta s / JdashVal theta s)
          - JVal theta s / JdashVal theta s ≠ 0 ∧
        v = rho1Val theta s := by
  rw [rho1_unfold]
  by_cases hjd : JdashVal theta s = 0
  · rw [hjd, fdiv_zero]
    simp
  · rw [fdiv_of_ne hjd]
    simp only [Option.some_bind]
    by_cases hq : 1 / 2 * (JVal theta s / JdashVal theta s)
        * (JVal theta s / JdashVal theta s) - JVal theta s / JdashVal theta s = 0
    · rw [hq, fdiv_zero]
      simp
    · rw [fdiv_of_ne hq]
      simp only [Option.some_bind, Option.some.injEq, ne_eq, hjd, not_false_eq_true, hq,
        true_and]
      unfold rho1Val
      exact eq_comm

/-! ## The output file name -/

theorem digitChar_injOn : ∀ a < 10, ∀ b < 10,
    Nat.digitChar a = Nat.digitChar b → a = b := by
  decide

theorem digitChar_ne_minus : ∀ a < 10, Nat.digitChar a ≠ '-' := by
  decide

theorem digitChar_eq_zero : ∀ a < 10, Nat.digitChar a = '0' → a = 0 := by
  decide

theorem map_digitChar_inj : ∀ l m : List Nat, (∀ d ∈ l, d < 10) → (∀ d ∈ m, d < 10) →
    l.map Nat.digitChar = m.map Nat.digitChar → l = m := by
  intro l
  induction l with
  | nil =>
    intro m _ _ h
    cases m with
    | nil => rfl
    | cons b m => simp at h
  | cons a l ih =>
    intro m hl hm h
    cases m with
    | nil => simp at h
    | cons b m =>
      simp only [List.map_cons, List.cons.injEq] at h
      have hab : a = b :=
        digitChar_injOn a (hl a (List.mem_cons_self a l)) b (hm b (List.mem_cons_self b m)) h.1
      have hlm : l = m :=
        ih m (fun d hd => hl d (List.mem_cons_of_mem a hd))
          (fun d hd => hm d (List.mem_cons_of_mem b hd)) h.2
      rw [hab, hlm]

theorem digits_reverse_lt (n : Nat) : ∀ d ∈ (Nat.digits 10 n).reverse, d < 10 := by
  intro d hd
  exact Nat.digits_lt_base (by norm_num) (List.mem_reverse.mp hd)

theorem decimalNat_ne_minus (n : Nat) : ∀ c ∈ decimalNat n, c ≠ '-' := by
  intro c hc
  unfold decimalNat at hc
  split at hc
  · simp only [List.mem_singleton] at hc
    rw [hc]
    decide
  · obtain ⟨d, hd, hdc⟩ := List.mem_map.mp hc
    rw [← hdc]
    exact digitChar_ne_minus d (digits_reverse_lt n d hd)

theorem decimalNat_ne_zero_digit {n : Nat} (hn : n ≠ 0) : decimalNat n ≠ ['0'] := by
  intro h
  unfold decimalNat at h
  rw [if_neg hn] at h
  have hlen : ((Nat.digits 10 n).reverse).length = 1 := by
    have := congrArg List.length h
    simpa using this
  obtain ⟨d, hd⟩ := List.length_eq_one.mp hlen
  rw [hd] at h
  simp only [List.map_cons, List.map_nil, List.cons.injEq, and_true] at h
  have hd10 : d < 10 := digits_reverse_lt n d (by rw [hd]; exact List.mem_singleton_self d)
  have hd0 : d = 0 := digitChar_eq_zero d hd10 h
  have hdig : Nat.digits 10 n = [0] := by
    have := congrArg List.reverse hd
    rw [List.reverse_reverse, hd0] at this
    simpa using this
  have hof := Nat.ofDigits_digits 10 n
  rw [hdig] at hof
  simp at hof
  exact hn hof.symm

theorem decimalNat_injective {n m : Nat} (h : decimalNat n = decimalNat m) : n = m := by
  by_cases hn : n = 0
  · by_cases hm : m = 0
    · rw [hn, hm]
    · exfalso
      rw [hn] at h
      exact decimalNat_ne_zero_digit hm h.symm
  · by_cases hm : m = 0
    · exfalso
      rw [hm] at h
      exact decimalNat_ne_zero_digit hn h
    · unfold decimalNat at h
      rw [if_neg hn, if_neg hm] at h
      have hrev := map_digitChar_inj _ _ (digits_reverse_lt n) (digits_reverse_lt m) h
      have hdig : Nat.digits 10 n = Nat.digits 10 m := List.reverse_injective hrev
      exact Nat.digits_inj_iff.mp hdig

theorem formatD_injective {a b : Int} (h : formatD a = formatD b) : a = b := by
  unfold formatD at h
  by_cases ha : a < 0
  · by_cases hb : b < 0
    · rw [if_pos ha, if_pos hb] at h
      have := decimalNat_injective (List.cons_injective h)
      omega
    · exfalso
      rw [if_pos ha, if_neg hb] at h
      exact decimalNat_ne_minus b.toNat '-' (by rw [← h]; exact List.mem_cons_self _ _) rfl
  · by_cases hb : b < 0
    · exfalso
      rw [if_neg ha, if_pos hb] at h
      exact decimalNat_ne_minus a.toNat '-' (by rw [h]; exact List.mem_cons_self _ _) rfl
    · rw [if_neg ha, if_neg hb] at h
      have := decimalNat_injective h
      omega

theorem plotName_t (n : Int) :
    plotName n 't'
      = some ("../Plots/FiniteAsymmetry_".toList ++ formatD n ++ "_theta.pdf".toList) := by
  unfold plotName
  rw [if_pos rfl]

theorem plotName_e (n : Int) :
    plotName n 'e'
      = some ("../Plots/FiniteAsymmetry_".toList ++ formatD n ++ "_energy.pdf".toList) := by
  unfold plotName
  rw [if_neg (by decide), if_pos rfl]

/-- A name ending in `_theta.pdf` is never a name ending in `_energy.pdf`. -/
theorem theta_name_ne_energy_name (p q c d : List Char) :
    p ++ c ++ "_theta.pdf".toList ≠ q ++ d ++ "_energy.pdf".toList := by
  intro h
  have hr := congrArg (fun l : List Char => l.reverse[4]?) h
  simp only [List.reverse_append] at hr
  have e1 : "_theta.pdf".toList.reverse = ['f', 'd', 'p', '.', 'a', 't', 'e', 'h', 't', '_'] := by
    decide
  have e2 : "_energy.pdf".toList.reverse
      = ['f', 'd', 'p', '.', 'y', 'g', 'r', 'e', 'n', 'e', '_'] := by
    decide
  rw [e1, e2] at hr
  simp at hr

/-! ## The acceptance `π/2` and the scattering angle 0 -/

theorem Z_pi_div_two : Z (Real.pi / 2) = some 1 := by
  have hne : Real.pi / 2 ≠ 0 := by
    have := Real.pi_pos
    positivity
  rw [Z_eq hne]
  have huw : u (Real.pi / 2) = w (Real.pi / 2) := by
    unfold u w
    have e : 2 * (Real.pi / 2) = Real.pi := by ring
    rw [e, Real.sin_pi]
    ring
  rw [huw, div_self (ne_of_gt (w_pos hne))]

theorem JdashVal_zero_left (s : ℝ) : JdashVal 0 s = 0 := by
  unfold JdashVal JdashLimVal X
  rw [zero_add, zero_sub, Real.cos_neg]
  ring

theorem rho1_zero_left (s : ℝ) : rho1 0 s = none := by
  rw [rho1_unfold, JdashVal_zero_left, fdiv_zero]
  rfl

/-! ## Claims -/

/-- C1: energy conservation. For every angle `theta` in degrees both conversions
return a number, and the photon energy plus the electron energy is 511. -/
theorem C1_energy_conservation (theta : ℝ) :
    ∃ p e : ℝ, ThetaToPhotonEnergy theta = some p ∧
      ThetaToElectronEnergy theta = some e ∧ p + e = 511 := by
  refine ⟨_, _, ThetaToPhotonEnergy_eq theta, ThetaToElectronEnergy_eq theta, ?_⟩
  ring

/-- C2: for every real `theta`, `1 ≤ X theta ≤ 3`, and `X 0 = 1`, `X (π/2) = 2`,
`X π = 3`. -/
theorem C2_X_range_and_values :
    (∀ theta : ℝ, 1 ≤ X theta ∧ X theta ≤ 3) ∧
      X 0 = 1 ∧ X (Real.pi / 2) = 2 ∧ X Real.pi = 3 := by
  refine ⟨fun theta => ⟨X_ge_one theta, X_le_three theta⟩, ?_, ?_, ?_⟩
  · simp [X]; norm_num
  · simp [X]
  · simp [X]; norm_num

/-- C3: `rho2` is even in the azimuthal acceptance. For every `theta`, `semiSpan`
and `alpha`, `Z (-alpha) = Z alpha` and
`rho2 theta semiSpan (-alpha) = rho2 theta semiSpan alpha`. -/
theorem C3_rho2_even_in_alpha (theta semiSpan alpha : ℝ) :
    Z (-alpha) = Z alpha ∧
      rho2 theta semiSpan (-alpha) = rho2 theta semiSpan alpha := by
  refine ⟨Z_neg alpha, ?_⟩
  unfold rho2
  rw [Z_neg]

/-- C10: the scenario `nBins = 3`, `semiSpan = 5` degrees. The stored angle samples
are 80, 90, 100 degrees, and in every row the three asymmetries, computed by `rho2`
at `alpha = 1, 30, 45` degrees in radians, are numbers `a1`, `a2`, `a3` with
`|a1 - 1| > |a2 - 1| > |a3 - 1|`. -/
theorem C10_end_to_end_three_bins :
    (GraphFiniteAsymmetry_loop 3 5).map SweepRow.theta = [80, 90, 100] ∧
      ∀ row ∈ GraphFiniteAsymmetry_loop 3 5, ∃ a1 a2 a3 : ℝ,
        row.asymm1 = some a1 ∧ row.asymm2 = some a2 ∧ row.asymm3 = some a3 ∧
        |a2 - 1| < |a1 - 1| ∧ |a3 - 1| < |a2 - 1| := by
  have e : GraphFiniteAsymmetry_loop 3 5 = [loopBody 3 (semiSpanRad 5) 0, loopBody 3 (semiSpanRad 5) 1,
      loopBody 3 (semiSpanRad 5) 2] := rfl
  constructor
  · have et : (GraphFiniteAsymmetry_loop 3 5).map SweepRow.theta
        = [sample 3 5 0, sample 3 5 1, sample 3 5 2] := rfl
    rw [et, sample_formula 5 (by norm_num) (by norm_num) (by norm_num) (by norm_num),
      sample_formula 5 (by norm_num) (by norm_num) (by norm_num) (by norm_num),
      sample_formula 5 (by norm_num) (by norm_num) (by norm_num) (by norm_num)]
    norm_num
  · intro row hrow
    rw [e] at hrow
    simp only [List.mem_cons, List.mem_singleton, List.not_mem_nil, or_false] at hrow
    rcases hrow with h | h | h
    · obtain ⟨h0, hs, hpi⟩ := @window_three_five 0 (by norm_num) (by norm_num)
      rw [h]
      exact rho2_three_alphas h0 hs hpi
    · obtain ⟨h0, hs, hpi⟩ := @window_three_five 1 (by norm_num) (by norm_num)
      rw [h]
      exact rho2_three_alphas h0 hs hpi
    · obtain ⟨h0, hs, hpi⟩ := @window_three_five 2 (by norm_num) (by norm_num)
      rw [h]
      exact rho2_three_alphas h0 hs hpi

/-- C11: at zero scattering angle the photon keeps all its energy.
`ThetaToPhotonEnergy 0` returns 511 and `ThetaToElectronEnergy 0` returns 0. -/
theorem C11_energies_at_zero_angle :
    ThetaToPhotonEnergy 0 = some 511 ∧ ThetaToElectronEnergy 0 = some 0 := by
  constructor
  · rw [ThetaToPhotonEnergy_eq]
    norm_num
  · rw [ThetaToElectronEnergy_eq]
    norm_num

/-- C12: no division by zero in the single-angle formulas. For every real `theta`,
`X theta ≥ 1`, so `X theta ≠ 0`, the divisors `2*X(theta)^2`, `X(theta)` and
`2 - cos(theta*π/180)` are non-zero and the argument of the logarithm is positive;
accordingly `JLim`, `JdashLim` and the two Compton conversions always return a
number. -/
theorem C12_single_angle_no_zero_divisor (theta : ℝ) :
    1 ≤ X theta ∧ X theta ≠ 0 ∧ 0 < X theta ∧
      2 * X theta * X theta ≠ 0 ∧ 2 - Real.cos (DegToRad * theta) ≠ 0 ∧
      JLim theta = some (JLimVal theta) ∧ JdashLim theta = some (JdashLimVal theta) ∧
      ThetaToPhotonEnergy theta = some (511 / (2 - Real.cos (DegToRad * theta))) ∧
      ThetaToElectronEnergy theta
        = some (511 - 511 / (2 - Real.cos (DegToRad * theta))) := by
  have hX := X_pos theta
  refine ⟨X_ge_one theta, ne_of_gt hX, hX, by positivity,
    ne_of_gt (compton_divisor_pos theta), JLim_eq theta, JdashLim_eq theta,
    ThetaToPhotonEnergy_eq theta, ThetaToElectronEnergy_eq theta⟩

/-- C13: the output file name is a deterministic function of `nBins` and the mode.
For mode `t` it is `../Plots/FiniteAsymmetry_<nBins>_theta.pdf` and for mode `e` it
is `../Plots/FiniteAsymmetry_<nBins>_energy.pdf`, with `nBins` printed in decimal
(for instance 5 and 128 below); two calls in these modes produce the same name
exactly when they have the same `nBins` and the same mode. -/
theorem C13_plotName_deterministic :
    (∀ n : Int, plotName n 't'
        = some ("../Plots/FiniteAsymmetry_".toList ++ formatD n ++ "_theta.pdf".toList)) ∧
      (∀ n : Int, plotName n 'e'
        = some ("../Plots/FiniteAsymmetry_".toList ++ formatD n ++ "_energy.pdf".toList)) ∧
      (∀ (n n' : Int) (m m' : Char), (m = 't' ∨ m = 'e') → (m' = 't' ∨ m' = 'e') →
        (plotName n m = plotName n' m' ↔ n = n' ∧ m = m')) ∧
      plotName 5 't' = some "../Plots/FiniteAsymmetry_5_theta.pdf".toList ∧
      plotName 128 'e' = some "../Plots/FiniteAsymmetry_128_energy.pdf".toList ∧
      plotName (-3) 't' = some "../Plots/FiniteAsymmetry_-3_theta.pdf".toList := by
  refine ⟨plotName_t, plotName_e, ?_, ?_, ?_, ?_⟩
  · intro n n' m m' hm hm'
    constructor
    · intro h
      rcases hm with hm | hm <;> rcases hm' with hm' | hm'
      · rw [hm, hm', plotName_t, plotName_t] at h
        have h1 := List.append_cancel_right (Option.some.inj h)
        have h2 := List.append_cancel_left h1
        exact ⟨formatD_injective h2, by rw [hm, hm']⟩
      · exfalso
        rw [hm, hm', plotName_t, plotName_e] at h
        exact theta_name_ne_energy_name _ _ _ _ (Option.some.inj h)
      · exfalso
        rw [hm, hm', plotName_e, plotName_t] at h
        exact theta_name_ne_energy_name _ _ _ _ (Option.some.inj h).symm
      · rw [hm, hm', plotName_e, plotName_e] at h
        have h1 := List.append_cancel_right (Option.some.inj h)
        have h2 := List.append_cancel_left h1
        exact ⟨formatD_injective h2, by rw [hm, hm']⟩
    · rintro ⟨h1, h2⟩
      rw [h1, h2]
  · rw [plotName_t]
    have e : formatD 5 = ['5'] := by
      simp [formatD, decimalNat]
      decide
    rw [e]
    decide
  · rw [plotName_e]
    have e : formatD 128 = ['1', '2', '8'] := by
      simp [formatD, decimalNat]
      decide
    rw [e]
    decide
  · rw [plotName_t]
    have e : formatD (-3) = ['-', '3'] := by
      simp [formatD, decimalNat]
      decide
    rw [e]
    decide

/-- C15: `rho1` equals `1 + 1/((1/2)*r^2 - r)` with `r = J/Jdash`. The calls `J` and
`Jdash` return numbers `j` and `jd`, and `rho1` returns the number `v` exactly when
`jd` and the divisor `(1/2)*r^2 - r` are non-zero and `v = 1 + 1/((1/2)*r^2 - r)`
for `r = j/jd`; the divisor is zero if and only if `r = 0` or `r = 2`. -/
theorem C15_rho1_formula_and_singular_points (theta semiSpan : ℝ) :
    ∃ j jd : ℝ, J theta semiSpan = some j ∧ Jdash theta semiSpan = some jd ∧
      (∀ v : ℝ, rho1 theta semiSpan = some v ↔
        jd ≠ 0 ∧ 1 / 2 * (j / jd) * (j / jd) - j / jd ≠ 0 ∧
          v = 1 + 1 / (1 / 2 * (j / jd) * (j / jd) - j / jd)) ∧
      (∀ r : ℝ, 1 / 2 * r * r - r = 0 ↔ r = 0 ∨ r = 2) :=
  ⟨JVal theta semiSpan, JdashVal theta semiSpan, J_eq theta semiSpan,
    Jdash_eq theta semiSpan, fun v => rho1_eq_some_iff theta semiSpan v,
    rho1_divisor_eq_zero_iff⟩

/-- C16, the claim as stated, fails where `rho1` is not a number: at `theta = 0`,
`semiSpan = 1` both finite differences vanish, `rho1` divides 0 by 0 and returns
none, which is not the value `-1`, and `rho2` at `alpha = π/2` returns none, not 1. -/
theorem C16_counterexample :
    rho1 0 1 = none ∧ rho1 0 1 ≠ some (-1) ∧
      rho2 0 1 (Real.pi / 2) = none ∧ rho2 0 1 (Real.pi / 2) ≠ some 1 := by
  have h1 : rho1 0 1 = none := rho1_zero_left 1
  have h2 : rho2 0 1 (Real.pi / 2) = none := by
    unfold rho2
    rw [Z_pi_div_two, h1]
    rfl
  refine ⟨h1, ?_, h2, ?_⟩
  · rw [h1]
    exact fun hc => Option.noConfusion hc
  · rw [h2]
    exact fun hc => Option.noConfusion hc

/-- C16, amended: at `alpha = π/2` the factor `Z` is exactly 1, and
`rho2 theta semiSpan (π/2)` returns 1 for every `theta` and `semiSpan` at which
`rho1` returns a number different from `-1`. -/
theorem C16_rho2_at_right_angle (theta semiSpan r : ℝ)
    (h : rho1 theta semiSpan = some r) (hr : r ≠ -1) :
    Z (Real.pi / 2) = some 1 ∧ rho2 theta semiSpan (Real.pi / 2) = some 1 := by
  refine ⟨Z_pi_div_two, ?_⟩
  have hd : 1 + 1 * r ≠ 0 := by
    intro hc
    apply hr
    linarith
  rw [rho2_eq_fdiv Z_pi_div_two h, fdiv_of_ne hd]
  congr 1
  rw [one_mul]
  exact div_self (by rw [one_mul] at hd; exact hd)

/-- C16, amended, applied at `theta = π/2`, `semiSpan = π/36`, where `rho1` returns
the number `rho1Val (π/2) (π/36)`, which exceeds 1. -/
theorem C16_rho2_at_right_angle_witness :
    rho1 (Real.pi / 2) (Real.pi / 36) = some (rho1Val (Real.pi / 2) (Real.pi / 36)) ∧
      rho1Val (Real.pi / 2) (Real.pi / 36) ≠ -1 ∧
      Z (Real.pi / 2) = some 1 ∧
      rho2 (Real.pi / 2) (Real.pi / 36) (Real.pi / 2) = some 1 := by
  have hpi := Real.pi_pos
  obtain ⟨h1, h2⟩ := @rho1_valid (Real.pi / 2) (Real.pi / 36)
    (by linarith) (by linarith) (by linarith)
  have hne : rho1Val (Real.pi / 2) (Real.pi / 36) ≠ -1 := by linarith
  exact ⟨h1, hne, C16_rho2_at_right_angle _ _ _ h1 hne⟩

end TTheory

end
